import Mathlib

/-!
Verification of the result-database layer of AutoDSE (`autodse/database.py`).

The development shallowly embeds the `Database` base class and its two
concrete adapters (`RedisDatabase`, `PickleDatabase`).  Backends are
association lists in insertion order (mirroring Python dicts / Redis hashes);
wall-clock readings of `time()` are passed in explicitly as a `clock`
function consumed one reading per call; `sys.exit` is modelled by an
`Outcome` value carrying the exit status and the in-memory state at the
moment of exit.
-/

namespace AutoDSE

/-- Return-code classification of a result (`Result.RetCode` in the result
module).  Modelled from the spec: `retCode: enum {VALID, DUPLICATED, ...}`;
`OTHER` stands for the remaining codes, which `database.py` only ever
compares against `DUPLICATED`. -/
inductive RetCode where
  | VALID
  | DUPLICATED
  | OTHER
  deriving DecidableEq, Repr

/-- Modelled from the spec: the key of a design point is derived
deterministically and stably from the point's parameter assignment
(`gen_key_from_design_point` lives in the parameter module, outside the
database source); we take the point's canonical string representation itself
as the key. -/
def gen_key_from_design_point (point : String) : String := point

/-- A result, reduced to the fields and class facts the database layer
inspects.  Modelled from the spec (the result module is outside the database
source): `quality` (lower is better), `ret_code`, optional `code_hash`,
optional `point`; the Booleans `isHLS`, `isMerlin` and `valid` stand for the
`isinstance(r, HLSResult)`, `isinstance(r, MerlinResult)` and `r.valid`
tests that `database.py` performs. -/
structure Result where
  isHLS : Bool
  isMerlin : Bool
  valid : Bool
  quality : Int
  ret_code : RetCode
  code_hash : Option String
  point : Option String
  deriving DecidableEq, Repr

/-- A value committed to the database (Python `Any`).  `Database.commit`
distinguishes `Result` instances from everything else, and
`PickleDatabase.query` additionally distinguishes Booleans, because pickledb
returns `False` for a missing key. -/
inductive Value where
  | res (r : Result)
  | boolVal (b : Bool)
  | other (s : String)
  deriving DecidableEq, Repr

/-- `isinstance(v, Result)`. -/
def Value.isResult : Value → Bool
  | .res _ => true
  | _ => false

/-- `isinstance(v, bool)`. -/
def Value.isBool : Value → Bool
  | .boolVal _ => true
  | _ => false

/-- One element of `best_cache`: the `(quality, timestamp, result)` triple
pushed by `PriorityQueue.put`. -/
abbrev Entry := Int × Nat × Result

/-- Python dict lookup `m[k]` / membership `k in m` over an association list
kept in insertion order. -/
def dictGet {β : Type} (m : List (String × β)) (k : String) : Option β :=
  match m with
  | [] => none
  | (k0, v) :: rest => if k0 = k then some v else dictGet rest k

/-- Python dict assignment `m[k] = v`: replace an existing binding in place,
otherwise append a new one. -/
def dictSet {β : Type} (m : List (String × β)) (k : String) (v : β) :
    List (String × β) :=
  match m with
  | [] => [(k, v)]
  | (k0, v0) :: rest =>
    if k0 = k then (k0, v) :: rest else (k0, v0) :: dictSet rest k v

/-- The in-memory derived state of `Database`: the best-result priority queue
(kept as the list of pushed entries, in push order) and the
code-hash-to-key dictionary. -/
structure DBState where
  best_cache : List Entry
  code_hash_map : List (String × String)
  deriving DecidableEq, Repr

/-- The state right after `Database.__init__`: both structures empty. -/
def emptyState : DBState := ⟨[], []⟩

/-- `Database.update_best` (database.py lines 99-116): skip `DUPLICATED`
results, otherwise push `(result.quality, time(), result)`; `now` is the
reading `time()` returns during the call.  The `except` branch around `put`
cannot fire for an unbounded queue, so the model is total. -/
def update_best (now : Nat) (result : Result) (st : DBState) : DBState :=
  if result.ret_code ≠ RetCode.DUPLICATED then
    { st with best_cache := st.best_cache ++ [(result.quality, now, result)] }
  else st

/-- `Database.add_code_hash` (lines 83-97): check-and-set; return the owning
key when the hash is already on file (leaving the map untouched), otherwise
record the new binding and return `none`. -/
def add_code_hash (st : DBState) (code_hash key : String) :
    Option String × DBState :=
  match dictGet st.code_hash_map code_hash with
  | some owner => (some owner, st)
  | none =>
    (none, { st with code_hash_map := dictSet st.code_hash_map code_hash key })

/-- The `Result` instances among the values `query_all` returned, in backend
order. -/
def resultsOf (stored : List Value) : List Result :=
  stored.filterMap fun v => match v with | .res r => some r | _ => none

/-- The list comprehension of `init_best_cache`:
`[r for r in self.query_all() if isinstance(r, HLSResult) and r.valid]`. -/
def hlsValid (stored : List Value) : List Result :=
  (resultsOf stored).filter fun r => r.isHLS && r.valid

/-- The list comprehension of `init_code_hash_map`:
`[r for r in self.query_all() if isinstance(r, MerlinResult)]`. -/
def merlins (stored : List Value) : List Result :=
  (resultsOf stored).filter fun r => r.isMerlin

/-- The loop body of `init_best_cache`: push each non-`DUPLICATED` result
with the next wall-clock reading. -/
def initBestAux (clock : Nat → Nat) (i : Nat) (rs : List Result)
    (st : DBState) : DBState :=
  match rs with
  | [] => st
  | r :: rest =>
    if r.ret_code ≠ RetCode.DUPLICATED then
      initBestAux clock (i + 1) rest
        { st with best_cache := st.best_cache ++ [(r.quality, clock i, r)] }
    else
      initBestAux clock i rest st

/-- `Database.init_best_cache` (lines 62-70): return early on an empty
store, else push every stored valid `HLSResult` whose return code is not
`DUPLICATED`.  (The early return on `count() == 0` and the loop over an
empty selection are indistinguishable, so the guard is on the stored
list.) -/
def init_best_cache (clock : Nat → Nat) (stored : List Value)
    (st : DBState) : DBState :=
  if stored.length = 0 then st
  else initBestAux clock 0 (hlsValid stored) st

/-- The loop body of `init_code_hash_map`: for each Merlin result carrying a
hash with a non-`DUPLICATED` return code, perform the plain dict assignment
`code_hash_map[hash] = gen_key_from_design_point(point)`.  `none` models the
`assert result.point is not None` failing. -/
def initHashAux (rs : List Result) (st : DBState) : Option DBState :=
  match rs with
  | [] => some st
  | r :: rest =>
    match r.code_hash with
    | some h =>
      if r.ret_code ≠ RetCode.DUPLICATED then
        match r.point with
        | none => none
        | some p =>
          initHashAux rest
            { st with code_hash_map :=
                dictSet st.code_hash_map h (gen_key_from_design_point p) }
      else initHashAux rest st
    | none => initHashAux rest st

/-- `Database.init_code_hash_map` (lines 72-81). -/
def init_code_hash_map (stored : List Value) (st : DBState) :
    Option DBState :=
  if stored.length = 0 then some st
  else initHashAux (merlins stored) st

/-- The derived-state part of `load()` shared by both adapters
(`RedisDatabase.load` lines 258-274, `PickleDatabase.load` lines 378-393):
`init_best_cache` followed by `init_code_hash_map` over the backend's
contents. -/
def load (clock : Nat → Nat) (stored : List Value) (st : DBState) :
    Option DBState :=
  init_code_hash_map stored (init_best_cache clock stored st)

/-- Outcome of an operation that may call `sys.exit`: either it returns with
state `s`, or the process exits with the given status, `s` being the
in-memory state at the moment of exit. -/
inductive Outcome (σ : Type) where
  | ok (s : σ)
  | exited (status : Nat) (s : σ)
  deriving DecidableEq, Repr

/-- `Database.commit` (lines 118-132), given the Boolean the backend's
`commit_impl` returned: on `False`, log and `sys.exit(1)` with the best
cache untouched; on `True`, feed the value to `update_best` exactly when it
is a `Result` instance. -/
def Database.commit (implOk : Bool) (now : Nat) (v : Value) (st : DBState) :
    Outcome DBState :=
  if implOk then
    .ok (match v with
      | .res r => update_best now r st
      | _ => st)
  else .exited 1 st

/-- The post-write loop of `Database.batch_commit` (lines 146-149): feed
every `Result` instance among the committed values to `update_best`, with
one fresh clock reading per actual push. -/
def updateBestSeq (clock : Nat → Nat) (i : Nat) (vals : List Value)
    (st : DBState) : DBState :=
  match vals with
  | [] => st
  | .res r :: rest =>
    if r.ret_code ≠ RetCode.DUPLICATED then
      updateBestSeq clock (i + 1) rest (update_best (clock i) r st)
    else updateBestSeq clock i rest st
  | _ :: rest => updateBestSeq clock i rest st

/-- `Database.batch_commit` (lines 134-149), given the count the backend's
`batch_commit_impl` returned: exit with status 1 when the count differs from
the number of pairs, otherwise run the update loop over the values. -/
def Database.batch_commit (implCount : Nat) (clock : Nat → Nat)
    (pairs : List (String × Value)) (st : DBState) : Outcome DBState :=
  if implCount ≠ pairs.length then .exited 1 st
  else .ok (updateBestSeq clock 0 (pairs.map Prod.snd) st)

/-- Committing a list of values one at a time through `Database.commit`, each
backend write succeeding (as both shipped `commit_impl`s unconditionally
report).  Successive calls observe successive clock readings. -/
def commitSeq (clock : Nat → Nat) (i : Nat) (vals : List Value)
    (st : DBState) : DBState :=
  match vals with
  | [] => st
  | v :: rest =>
    match Database.commit true (clock i) v st with
    | .ok st0 => commitSeq clock (i + 1) rest st0
    | .exited _ s => s

/-- The `(quality, result)` pairs held in the best cache, timestamps
dropped. -/
def bestPairs (st : DBState) : List (Int × Result) :=
  st.best_cache.map fun e => (e.1, e.2.2)

/-- Queue order of best-cache entries: lexicographic on
`(quality, timestamp)`, exactly how `PriorityQueue` compares the pushed
triples whenever no two entries share both quality and timestamp. -/
def entryLE (a b : Entry) : Prop :=
  a.1 < b.1 ∨ (a.1 = b.1 ∧ a.2.1 ≤ b.2.1)

instance : DecidableRel entryLE := fun a b => by
  unfold entryLE; exact inferInstance

instance : IsTotal Entry entryLE := by
  constructor
  intro a b
  unfold entryLE
  rcases lt_trichotomy a.1 b.1 with h | h | h
  · exact Or.inl (Or.inl h)
  · rcases Nat.le_total a.2.1 b.2.1 with ht | ht
    · exact Or.inl (Or.inr ⟨h, ht⟩)
    · exact Or.inr (Or.inr ⟨h.symm, ht⟩)
  · exact Or.inr (Or.inl h)

instance : IsTrans Entry entryLE := by
  constructor
  intro a b c hab hbc
  unfold entryLE at *
  rcases hab with h1 | ⟨h1, t1⟩ <;> rcases hbc with h2 | ⟨h2, t2⟩
  · exact Or.inl (h1.trans h2)
  · exact Or.inl (h2 ▸ h1)
  · exact Or.inl (h1 ▸ h2)
  · exact Or.inr ⟨h1.trans h2, t1.trans t2⟩

/-- Draining the best cache: repeatedly `get()` the minimum element.  When
all `(quality, timestamp)` pairs are distinct this is the unique enumeration
of the entries in `entryLE` order, realised here as a sort. -/
def drain (c : List Entry) : List Entry :=
  List.insertionSort entryLE c

/-- What `pickle.loads` does with a raw blob stored in the Redis hash:
`empty` is a falsy blob (the `if pickled_obj:` guard fails); `good v`
deserializes to `v`; `badValueError` raises the `ValueError` that the
`except ValueError` arms at database.py lines 291 and 307 catch and log;
`badOther` raises any other exception — `pickle.loads`' usual failure modes
(`UnpicklingError`, `EOFError`, ...) are not `ValueError`s — which no
handler in these functions catches. -/
inductive Blob where
  | empty
  | good (v : Value)
  | badValueError
  | badOther
  deriving DecidableEq, Repr

/-- The Redis hash backing a `RedisDatabase`, under its `db_id`. -/
abbrev RedisDB := List (String × Blob)

/-- Result of running a Python call that may raise: either a normal return
value, or an uncaught exception propagating to the caller. -/
inductive PyResult (α : Type) where
  | ret (a : α)
  | exn
  deriving DecidableEq, Repr

/-- The shared per-key read of `RedisDatabase.query` / `batch_query`: an
absent key or a falsy blob gives `None`; `pickle.loads` succeeding gives the
object; a `ValueError` is caught, logged and surfaced as `None`; any other
exception propagates uncaught. -/
def loadBlob : Option Blob → PyResult (Option Value)
  | none => .ret none
  | some .empty => .ret none
  | some (.good v) => .ret (some v)
  | some .badValueError => .ret none
  | some .badOther => .exn

/-- `RedisDatabase.query` (lines 281-293): absent key (`hexists` false)
returns `None`; otherwise the blob is loaded — the function has no
`sys.exit` path, but only `ValueError` is caught, so every other
deserialization failure escapes to the caller as an exception. -/
def RedisDatabase.query (db : RedisDB) (key : String) :
    PyResult (Option Value) :=
  loadBlob (dictGet db key)

/-- `RedisDatabase.batch_query` (lines 295-312): one `hmget` over all keys,
then the per-key loop; a caught `ValueError` appends `None` for that key
alone, while an uncaught exception aborts the whole call, returning nothing
for the other keys. -/
def RedisDatabase.batch_query (db : RedisDB) (keys : List String) :
    PyResult (List (Option Value)) :=
  match keys with
  | [] => .ret []
  | k :: rest =>
    match loadBlob (dictGet db k) with
    | .exn => .exn
    | .ret o =>
      match RedisDatabase.batch_query db rest with
      | .exn => .exn
      | .ret l => .ret (o :: l)

/-- `RedisDatabase.commit_impl` (lines 318-324): `hset` the pickled value,
`persist` (file output, outside this model), and an unconditional
`return True`. -/
def RedisDatabase.commit_impl (db : RedisDB) (key : String) (v : Value) :
    RedisDB × Bool :=
  (dictSet db key (.good v), true)

/-- The dict comprehension of `RedisDatabase.batch_commit_impl`:
`{key: pickle.dumps(result) for key, result in pairs}`.  Later pairs with an
equal key overwrite earlier ones, so its size is the number of distinct
keys. -/
def pairsDict (pairs : List (String × Value)) : List (String × Value) :=
  pairs.foldl (fun m kv => dictSet m kv.1 kv.2) []

/-- `RedisDatabase.batch_commit_impl` (lines 326-332): build the dict,
`hmset` it, `persist`, and return `len(data)` — the number of distinct keys
in the batch, not `len(pairs)`. -/
def RedisDatabase.batch_commit_impl (db : RedisDB)
    (pairs : List (String × Value)) : RedisDB × Nat :=
  let data := pairsDict pairs
  (data.foldl (fun d kv => dictSet d kv.1 (.good kv.2)) db, data.length)

/-- A `RedisDatabase` instance: the Redis hash plus the in-memory derived
state inherited from `Database`. -/
structure RedisStore where
  db : RedisDB
  st : DBState
  deriving DecidableEq, Repr

/-- `Database.commit` running over the Redis backend. -/
def RedisDatabase.commit (now : Nat) (key : String) (v : Value)
    (s : RedisStore) : Outcome RedisStore :=
  let w := RedisDatabase.commit_impl s.db key v
  if w.2 then
    .ok { db := w.1,
          st := match v with | .res r => update_best now r s.st | _ => s.st }
  else .exited 1 { db := w.1, st := s.st }

/-- `Database.batch_commit` running over the Redis backend. -/
def RedisDatabase.batch_commit (clock : Nat → Nat)
    (pairs : List (String × Value)) (s : RedisStore) : Outcome RedisStore :=
  let w := RedisDatabase.batch_commit_impl s.db pairs
  if w.2 ≠ pairs.length then .exited 1 { db := w.1, st := s.st }
  else .ok { db := w.1, st := updateBestSeq clock 0 (pairs.map Prod.snd) s.st }

/-- The pickledb key space backing a `PickleDatabase` (after `load()` has
decoded the stored JSON back into objects). -/
abbrev PickleDB := List (String × Value)

/-- `pickledb.get`: the stored value, or `False` — a Python Bool — when the
key is missing. -/
def pickleGet (db : PickleDB) (key : String) : Value :=
  match dictGet db key with
  | some v => v
  | none => .boolVal false

/-- `PickleDatabase.query` (lines 395-401): `get` under the lock, and `None`
exactly when the fetched value is a Bool (pickledb's missing-key marker).
The function has no exit path: it never terminates the process. -/
def PickleDatabase.query (db : PickleDB) (key : String) : Option Value :=
  let value := pickleGet db key
  if value.isBool then none else some value

/-- `PickleDatabase.batch_query` (lines 403-415): `get` each key under one
lock acquisition, with the same Bool-means-missing handling per key. -/
def PickleDatabase.batch_query (db : PickleDB) (keys : List String) :
    List (Option Value) :=
  match keys with
  | [] => []
  | k :: rest => PickleDatabase.query db k :: PickleDatabase.batch_query db rest

/-- `PickleDatabase.commit_impl` (lines 421-427): `set` under the lock and an
unconditional `return True`. -/
def PickleDatabase.commit_impl (db : PickleDB) (key : String) (v : Value) :
    PickleDB × Bool :=
  (dictSet db key v, true)

/-- `PickleDatabase.batch_commit_impl` (lines 429-436): `set` every pair
under the lock and `return len(pairs)`. -/
def PickleDatabase.batch_commit_impl (db : PickleDB)
    (pairs : List (String × Value)) : PickleDB × Nat :=
  (pairs.foldl (fun d kv => dictSet d kv.1 kv.2) db, pairs.length)

/-- A `PickleDatabase` instance: the pickledb key space plus the in-memory
derived state inherited from `Database`. -/
structure PickleStore where
  db : PickleDB
  st : DBState
  deriving DecidableEq, Repr

/-- `Database.commit` running over the pickle backend. -/
def PickleDatabase.commit (now : Nat) (key : String) (v : Value)
    (s : PickleStore) : Outcome PickleStore :=
  let w := PickleDatabase.commit_impl s.db key v
  if w.2 then
    .ok { db := w.1,
          st := match v with | .res r => update_best now r s.st | _ => s.st }
  else .exited 1 { db := w.1, st := s.st }

/-- `Database.batch_commit` running over the pickle backend. -/
def PickleDatabase.batch_commit (clock : Nat → Nat)
    (pairs : List (String × Value)) (s : PickleStore) : Outcome PickleStore :=
  let w := PickleDatabase.batch_commit_impl s.db pairs
  if w.2 ≠ pairs.length then .exited 1 { db := w.1, st := s.st }
  else .ok { db := w.1, st := updateBestSeq clock 0 (pairs.map Prod.snd) s.st }

/-- The `(quality, result)` pairs a result list contributes to the best
cache: one per non-`DUPLICATED` result, in order. -/
def bestInserts (rs : List Result) : List (Int × Result) :=
  match rs with
  | [] => []
  | r :: rest =>
    if r.ret_code ≠ RetCode.DUPLICATED then (r.quality, r) :: bestInserts rest
    else bestInserts rest

/-- The dict assignments `init_code_hash_map` performs, in iteration order:
one `(hash, derived key)` pair per result carrying a hash with a
non-`DUPLICATED` return code (and a point for the assertion to pass). -/
def hashAssignments (rs : List Result) : List (String × String) :=
  match rs with
  | [] => []
  | r :: rest =>
    match r.code_hash with
    | some h =>
      if r.ret_code ≠ RetCode.DUPLICATED then
        match r.point with
        | some p => (h, gen_key_from_design_point p) :: hashAssignments rest
        | none => hashAssignments rest
      else hashAssignments rest
    | none => hashAssignments rest

/-- Perform a list of dict assignments in order, later assignments to the
same key overwriting earlier ones. -/
def applyAssignments (m : List (String × String))
    (as : List (String × String)) : List (String × String) :=
  as.foldl (fun acc a => dictSet acc a.1 a.2) m

/-- The value of the last assignment to `q` in an assignment sequence, if
any: the reference reading of a last-writer-wins dict. -/
def lastVal (as : List (String × String)) (q : String) : Option String :=
  match as with
  | [] => none
  | a :: rest =>
    match lastVal rest q with
    | some v => some v
    | none => if a.1 = q then some a.2 else none

/-- Every result about to be written into the code-hash map carries a design
point, so the `assert result.point is not None` of `init_code_hash_map`
cannot fire. -/
def pointsOk (rs : List Result) : Prop :=
  ∀ r ∈ rs, r.code_hash.isSome = true →
    r.ret_code ≠ RetCode.DUPLICATED → r.point.isSome = true

instance (rs : List Result) : Decidable (pointsOk rs) := by
  unfold pointsOk; exact inferInstance

/-- A valid HLS result with quality 4 and no hash, used in concrete runs. -/
def rv1 : Result :=
  { isHLS := true, isMerlin := false, valid := true, quality := 4,
    ret_code := .VALID, code_hash := none, point := none }

/-- A valid HLS result with quality 3, used in concrete runs. -/
def rHLSv : Result :=
  { isHLS := true, isMerlin := false, valid := true, quality := 3,
    ret_code := .VALID, code_hash := none, point := some "pa" }

/-- A Merlin (non-HLS) result carrying hash "hh", from point "pb". -/
def rMerl : Result :=
  { isHLS := false, isMerlin := true, valid := true, quality := 7,
    ret_code := .VALID, code_hash := some "hh", point := some "pb" }

/-- A second Merlin result carrying the same hash "hh", from point "pc". -/
def rMerl2 : Result :=
  { isHLS := false, isMerlin := true, valid := true, quality := 9,
    ret_code := .VALID, code_hash := some "hh", point := some "pc" }

/-- A `DUPLICATED` result that is both an HLS and a Merlin result and
carries a hash, used to check the exclusion paths on concrete runs. -/
def rDup : Result :=
  { isHLS := true, isMerlin := true, valid := true, quality := 1,
    ret_code := .DUPLICATED, code_hash := some "hd", point := some "pd" }

/-- A Redis hash holding, in order: a blob whose deserialization raises an
uncaught exception, a good blob, a blob raising the caught `ValueError`, and
a falsy blob. -/
def exdb : RedisDB :=
  [("a", .badOther), ("b", .good (.res rv1)), ("c", .badValueError),
   ("d", .empty)]

/-- A mixed backend content for the rebuild claims: a valid HLS result, two
same-hash Merlin results, a duplicated result and a non-result value. -/
def exStored : List Value :=
  [.res rHLSv, .res rMerl, .res rMerl2, .res rDup, .other "x"]

theorem dictGet_dictSet {β : Type} (m : List (String × β)) (k q : String)
    (v : β) :
    dictGet (dictSet m k v) q = if k = q then some v else dictGet m q := by
  induction m with
  | nil => simp [dictSet, dictGet]
  | cons hd tl ih =>
    obtain ⟨k0, v0⟩ := hd
    by_cases h0 : k0 = k
    · subst h0
      by_cases hq : k0 = q
      · subst hq; simp [dictSet, dictGet]
      · simp [dictSet, dictGet, hq]
    · by_cases hq : k0 = q
      · subst hq
        have hkq : ¬k = k0 := fun hh => h0 hh.symm
        simp [dictSet, dictGet, h0, hkq]
      · simp [dictSet, dictGet, h0, hq, ih]

theorem mem_dictSet {β : Type} {m : List (String × β)} {k : String} {v : β}
    {p : String × β} (h : p ∈ dictSet m k v) : p ∈ m ∨ p.1 = k := by
  obtain ⟨a, b⟩ := p
  induction m with
  | nil =>
    simp [dictSet] at h
    exact Or.inr h.1
  | cons hd tl ih =>
    obtain ⟨k0, v0⟩ := hd
    by_cases h0 : k0 = k
    · subst h0
      simp [dictSet] at h
      rcases h with ⟨ha, _⟩ | hm
      · exact Or.inr ha
      · exact Or.inl (List.mem_cons_of_mem _ hm)
    · simp only [dictSet, if_neg h0, List.mem_cons] at h
      rcases h with he | hm
      · exact Or.inl (by simp [he])
      · rcases ih hm with h1 | h1
        · exact Or.inl (List.mem_cons_of_mem _ h1)
        · exact Or.inr h1

theorem dictSet_of_not_mem {β : Type} (m : List (String × β)) (k : String)
    (v : β) (h : k ∉ m.map Prod.fst) : dictSet m k v = m ++ [(k, v)] := by
  induction m with
  | nil => rfl
  | cons hd tl ih =>
    obtain ⟨k0, v0⟩ := hd
    simp only [List.map_cons, List.mem_cons] at h
    push_neg at h
    have h0 : ¬k0 = k := fun hh => h.1 hh.symm
    simp [dictSet, h0, ih h.2]

theorem foldl_dictSet_length {β : Type} (pairs : List (String × β)) :
    ∀ m : List (String × β),
      (m.map Prod.fst ++ pairs.map Prod.fst).Nodup →
      (pairs.foldl (fun d kv => dictSet d kv.1 kv.2) m).length =
        m.length + pairs.length := by
  induction pairs with
  | nil => intro m _; simp
  | cons hd tl ih =>
    intro m hnd
    obtain ⟨k, v⟩ := hd
    simp only [List.map_cons] at hnd
    have hk : k ∉ m.map Prod.fst := by
      rw [List.nodup_append] at hnd
      intro hmem
      exact hnd.2.2 hmem (by simp)
    have hset : dictSet m k v = m ++ [(k, v)] := dictSet_of_not_mem m k v hk
    have hstep : (((k, v) :: tl).foldl (fun d kv => dictSet d kv.1 kv.2) m) =
        tl.foldl (fun d kv => dictSet d kv.1 kv.2) (m ++ [(k, v)]) := by
      rw [List.foldl_cons]
      simp only [hset]
    rw [hstep, ih (m ++ [(k, v)]) (by simpa [List.append_assoc] using hnd)]
    simp
    omega

theorem pairsDict_length (pairs : List (String × Value))
    (h : (pairs.map Prod.fst).Nodup) :
    (pairsDict pairs).length = pairs.length := by
  have := foldl_dictSet_length pairs [] (by simpa using h)
  simpa [pairsDict] using this

theorem dictGet_applyAssignments (as : List (String × String)) :
    ∀ (m : List (String × String)) (q : String),
      dictGet (applyAssignments m as) q =
        match lastVal as q with
        | some v => some v
        | none => dictGet m q := by
  induction as with
  | nil => intro m q; simp [applyAssignments, lastVal]
  | cons a rest ih =>
    intro m q
    have step : applyAssignments m (a :: rest) =
        applyAssignments (dictSet m a.1 a.2) rest := by
      simp [applyAssignments]
    have hrhs : lastVal (a :: rest) q =
        match lastVal rest q with
        | some v => some v
        | none => if a.1 = q then some a.2 else none := rfl
    cases hl : lastVal rest q with
    | some v => simp [step, ih, hrhs, hl]
    | none =>
      simp only [step, ih, hrhs, hl]
      rw [dictGet_dictSet]
      by_cases ha : a.1 = q
      · simp [ha]
      · simp [ha]

theorem resultsOf_map_res (rs : List Result) :
    resultsOf (rs.map Value.res) = rs := by
  induction rs with
  | nil => rfl
  | cons r rest ih =>
    have hstep : resultsOf (Value.res r :: rest.map Value.res) =
        r :: resultsOf (rest.map Value.res) := rfl
    simp [List.map_cons, hstep, ih]

theorem bestPairs_update_best (now : Nat) (r : Result) (st : DBState) :
    bestPairs (update_best now r st) = bestPairs st ++ bestInserts [r] := by
  by_cases h : r.ret_code ≠ RetCode.DUPLICATED
  · simp [update_best, bestPairs, bestInserts, h]
  · simp [update_best, bestPairs, bestInserts, h]

theorem code_hash_map_update_best (now : Nat) (r : Result) (st : DBState) :
    (update_best now r st).code_hash_map = st.code_hash_map := by
  unfold update_best
  split <;> rfl

theorem bestPairs_initBestAux (clock : Nat → Nat) (rs : List Result) :
    ∀ (i : Nat) (st : DBState),
      bestPairs (initBestAux clock i rs st) =
        bestPairs st ++ bestInserts rs := by
  induction rs with
  | nil => intro i st; simp [initBestAux, bestInserts]
  | cons r rest ih =>
    intro i st
    by_cases h : r.ret_code ≠ RetCode.DUPLICATED
    · simp only [initBestAux, if_pos h]
      rw [ih]
      simp [bestPairs, bestInserts, h]
    · simp only [initBestAux, if_neg h]
      rw [ih]
      simp [bestInserts, h]

theorem code_hash_map_initBestAux (clock : Nat → Nat) (rs : List Result) :
    ∀ (i : Nat) (st : DBState),
      (initBestAux clock i rs st).code_hash_map = st.code_hash_map := by
  induction rs with
  | nil => intro i st; rfl
  | cons r rest ih =>
    intro i st
    simp only [initBestAux]
    split
    · rw [ih]
    · rw [ih]

theorem bestPairs_init_best_cache (clock : Nat → Nat) (stored : List Value)
    (st : DBState) :
    bestPairs (init_best_cache clock stored st) =
      bestPairs st ++ bestInserts (hlsValid stored) := by
  unfold init_best_cache
  split
  · next hlen =>
    have hnil : stored = [] := List.length_eq_zero.mp hlen
    subst hnil
    simp [hlsValid, resultsOf, bestInserts]
  · exact bestPairs_initBestAux clock (hlsValid stored) 0 st

theorem code_hash_map_init_best_cache (clock : Nat → Nat)
    (stored : List Value) (st : DBState) :
    (init_best_cache clock stored st).code_hash_map = st.code_hash_map := by
  unfold init_best_cache
  split
  · rfl
  · exact code_hash_map_initBestAux clock (hlsValid stored) 0 st

theorem bestPairs_updateBestSeq (clock : Nat → Nat) (vals : List Value) :
    ∀ (i : Nat) (st : DBState),
      bestPairs (updateBestSeq clock i vals st) =
        bestPairs st ++ bestInserts (resultsOf vals) := by
  induction vals with
  | nil => intro i st; simp [updateBestSeq, resultsOf, bestInserts]
  | cons v rest ih =>
    intro i st
    cases v with
    | res r =>
      have hres : resultsOf (Value.res r :: rest) = r :: resultsOf rest := rfl
      by_cases h : r.ret_code ≠ RetCode.DUPLICATED
      · simp only [updateBestSeq, if_pos h]
        rw [ih, bestPairs_update_best]
        simp [resultsOf, bestInserts, h]
      · simp only [updateBestSeq, if_neg h]
        rw [ih]
        simp [resultsOf, bestInserts, h]
    | boolVal b =>
      have hstep : updateBestSeq clock i (Value.boolVal b :: rest) st =
          updateBestSeq clock i rest st := rfl
      rw [hstep, ih]; rfl
    | other s =>
      have hstep : updateBestSeq clock i (Value.other s :: rest) st =
          updateBestSeq clock i rest st := rfl
      rw [hstep, ih]; rfl

theorem code_hash_map_updateBestSeq (clock : Nat → Nat) (vals : List Value) :
    ∀ (i : Nat) (st : DBState),
      (updateBestSeq clock i vals st).code_hash_map = st.code_hash_map := by
  induction vals with
  | nil => intro i st; rfl
  | cons v rest ih =>
    intro i st
    cases v with
    | res r =>
      by_cases h : r.ret_code ≠ RetCode.DUPLICATED
      · simp only [updateBestSeq, if_pos h]
        rw [ih, code_hash_map_update_best]
      · simp only [updateBestSeq, if_neg h]
        rw [ih]
    | boolVal b =>
      have hstep : updateBestSeq clock i (Value.boolVal b :: rest) st =
          updateBestSeq clock i rest st := rfl
      rw [hstep, ih]
    | other s =>
      have hstep : updateBestSeq clock i (Value.other s :: rest) st =
          updateBestSeq clock i rest st := rfl
      rw [hstep, ih]

theorem bestPairs_commitSeq (clock : Nat → Nat) (vals : List Value) :
    ∀ (i : Nat) (st : DBState),
      bestPairs (commitSeq clock i vals st) =
        bestPairs st ++ bestInserts (resultsOf vals) := by
  induction vals with
  | nil => intro i st; simp [commitSeq, resultsOf, bestInserts]
  | cons v rest ih =>
    intro i st
    cases v with
    | res r =>
      have hstep : commitSeq clock i (Value.res r :: rest) st =
          commitSeq clock (i + 1) rest (update_best (clock i) r st) := rfl
      have hres : resultsOf (Value.res r :: rest) = r :: resultsOf rest := rfl
      rw [hstep, ih, bestPairs_update_best]
      by_cases h : r.ret_code ≠ RetCode.DUPLICATED
      · simp [resultsOf, bestInserts, h]
      · simp [resultsOf, bestInserts, h]
    | boolVal b =>
      have hstep : commitSeq clock i (Value.boolVal b :: rest) st =
          commitSeq clock (i + 1) rest st := rfl
      rw [hstep, ih]; rfl
    | other s =>
      have hstep : commitSeq clock i (Value.other s :: rest) st =
          commitSeq clock (i + 1) rest st := rfl
      rw [hstep, ih]; rfl

theorem code_hash_map_commitSeq (clock : Nat → Nat) (vals : List Value) :
    ∀ (i : Nat) (st : DBState),
      (commitSeq clock i vals st).code_hash_map = st.code_hash_map := by
  induction vals with
  | nil => intro i st; rfl
  | cons v rest ih =>
    intro i st
    cases v with
    | res r =>
      have hstep : commitSeq clock i (Value.res r :: rest) st =
          commitSeq clock (i + 1) rest (update_best (clock i) r st) := rfl
      rw [hstep, ih, code_hash_map_update_best]
    | boolVal b =>
      have hstep : commitSeq clock i (Value.boolVal b :: rest) st =
          commitSeq clock (i + 1) rest st := rfl
      rw [hstep, ih]
    | other s =>
      have hstep : commitSeq clock i (Value.other s :: rest) st =
          commitSeq clock (i + 1) rest st := rfl
      rw [hstep, ih]

theorem initHashAux_eq (rs : List Result) :
    ∀ st : DBState, pointsOk rs →
      initHashAux rs st =
        some { st with code_hash_map :=
          applyAssignments st.code_hash_map (hashAssignments rs) } := by
  induction rs with
  | nil => intro st _; rfl
  | cons r rest ih =>
    intro st hpts
    have hrest : pointsOk rest := fun x hx => hpts x (List.mem_cons_of_mem _ hx)
    cases hh : r.code_hash with
    | none =>
      simp only [initHashAux, hh]
      rw [ih st hrest]
      simp [hashAssignments, hh]
    | some h =>
      by_cases hret : r.ret_code ≠ RetCode.DUPLICATED
      · have hpt : r.point.isSome = true :=
          hpts r (List.mem_cons_self _ _) (by rw [hh]; rfl) hret
        cases hp : r.point with
        | none => rw [hp] at hpt; simp at hpt
        | some p =>
          simp only [initHashAux, hh, if_pos hret, hp]
          rw [ih _ hrest]
          simp [hashAssignments, hh, hret, hp, applyAssignments]
      · simp only [initHashAux, hh, if_neg hret]
        rw [ih st hrest]
        simp [hashAssignments, hh, hret]

theorem init_code_hash_map_eq (stored : List Value) (st : DBState)
    (h : pointsOk (merlins stored)) :
    init_code_hash_map stored st =
      some { st with code_hash_map :=
        applyAssignments st.code_hash_map (hashAssignments (merlins stored)) } := by
  unfold init_code_hash_map
  split
  · next hlen =>
    have hnil : stored = [] := List.length_eq_zero.mp hlen
    subst hnil
    rfl
  · exact initHashAux_eq (merlins stored) st h

theorem initBestAux_mem (clock : Nat → Nat) (rs : List Result) :
    ∀ (i : Nat) (st : DBState) (e : Entry),
      e ∈ (initBestAux clock i rs st).best_cache →
      e ∈ st.best_cache ∨
        (e.2.2 ∈ rs ∧ e.2.2.ret_code ≠ RetCode.DUPLICATED) := by
  induction rs with
  | nil => intro i st e he; exact Or.inl he
  | cons r rest ih =>
    intro i st e he
    by_cases h : r.ret_code ≠ RetCode.DUPLICATED
    · simp only [initBestAux, if_pos h] at he
      rcases ih _ _ _ he with h1 | ⟨h1, h2⟩
      · simp only [List.mem_append, List.mem_singleton] at h1
        rcases h1 with h1 | h1
        · exact Or.inl h1
        · subst h1
          exact Or.inr ⟨List.mem_cons_self _ _, h⟩
      · exact Or.inr ⟨List.mem_cons_of_mem _ h1, h2⟩
    · simp only [initBestAux, if_neg h] at he
      rcases ih _ _ _ he with h1 | ⟨h1, h2⟩
      · exact Or.inl h1
      · exact Or.inr ⟨List.mem_cons_of_mem _ h1, h2⟩

theorem initHashAux_mem (rs : List Result) :
    ∀ (st st' : DBState), initHashAux rs st = some st' →
      ∀ p : String × String, p ∈ st'.code_hash_map →
        p ∈ st.code_hash_map ∨
          ∃ r, r ∈ rs ∧ r.ret_code ≠ RetCode.DUPLICATED ∧
            r.code_hash = some p.1 := by
  induction rs with
  | nil =>
    intro st st' hst p hp
    simp only [initHashAux, Option.some.injEq] at hst
    subst hst
    exact Or.inl hp
  | cons r rest ih =>
    intro st st' hst p hp
    cases hh : r.code_hash with
    | none =>
      simp only [initHashAux, hh] at hst
      rcases ih _ _ hst p hp with h1 | ⟨r1, h1, h2, h3⟩
      · exact Or.inl h1
      · exact Or.inr ⟨r1, List.mem_cons_of_mem _ h1, h2, h3⟩
    | some h =>
      by_cases hret : r.ret_code ≠ RetCode.DUPLICATED
      · cases hp0 : r.point with
        | none =>
          rw [initHashAux.eq_def] at hst
          simp [hh, if_pos hret, hp0] at hst
        | some pt =>
          simp only [initHashAux, hh, if_pos hret, hp0] at hst
          rcases ih _ _ hst p hp with h1 | ⟨r1, h1, h2, h3⟩
          · rcases mem_dictSet h1 with h2 | h2
            · exact Or.inl h2
            · exact Or.inr ⟨r, List.mem_cons_self _ _, hret, by rw [hh, h2]⟩
          · exact Or.inr ⟨r1, List.mem_cons_of_mem _ h1, h2, h3⟩
      · simp only [initHashAux, hh, if_neg hret] at hst
        rcases ih _ _ hst p hp with h1 | ⟨r1, h1, h2, h3⟩
        · exact Or.inl h1
        · exact Or.inr ⟨r1, List.mem_cons_of_mem _ h1, h2, h3⟩

theorem updateBestSeq_mem (clock : Nat → Nat) (vals : List Value) :
    ∀ (i : Nat) (st : DBState) (e : Entry),
      e ∈ (updateBestSeq clock i vals st).best_cache →
      e ∈ st.best_cache ∨
        (Value.res e.2.2 ∈ vals ∧ e.2.2.ret_code ≠ RetCode.DUPLICATED) := by
  induction vals with
  | nil => intro i st e he; exact Or.inl he
  | cons v rest ih =>
    intro i st e he
    cases v with
    | res r =>
      by_cases h : r.ret_code ≠ RetCode.DUPLICATED
      · simp only [updateBestSeq, if_pos h] at he
        rcases ih _ _ _ he with h1 | ⟨h1, h2⟩
        · simp only [update_best, if_pos h, List.mem_append,
            List.mem_singleton] at h1
          rcases h1 with h1 | h1
          · exact Or.inl h1
          · subst h1
            exact Or.inr ⟨List.mem_cons_self _ _, h⟩
        · exact Or.inr ⟨List.mem_cons_of_mem _ h1, h2⟩
      · simp only [updateBestSeq, if_neg h] at he
        rcases ih _ _ _ he with h1 | ⟨h1, h2⟩
        · exact Or.inl h1
        · exact Or.inr ⟨List.mem_cons_of_mem _ h1, h2⟩
    | boolVal b =>
      have hstep : updateBestSeq clock i (Value.boolVal b :: rest) st =
          updateBestSeq clock i rest st := rfl
      rw [hstep] at he
      rcases ih _ _ _ he with h1 | ⟨h1, h2⟩
      · exact Or.inl h1
      · exact Or.inr ⟨List.mem_cons_of_mem _ h1, h2⟩
    | other s =>
      have hstep : updateBestSeq clock i (Value.other s :: rest) st =
          updateBestSeq clock i rest st := rfl
      rw [hstep] at he
      rcases ih _ _ _ he with h1 | ⟨h1, h2⟩
      · exact Or.inl h1
      · exact Or.inr ⟨List.mem_cons_of_mem _ h1, h2⟩

theorem updateBestSeq_ts (clock : Nat → Nat)
    (hclock : ∀ i j, i < j → clock i < clock j) (vals : List Value) :
    ∀ (i : Nat) (st : DBState),
      (∀ e ∈ st.best_cache, e.2.1 < clock i) →
      st.best_cache.Pairwise (fun a b => a.2.1 < b.2.1) →
      (∀ e ∈ (updateBestSeq clock i vals st).best_cache,
          e.2.1 < clock (i + vals.length)) ∧
      (updateBestSeq clock i vals st).best_cache.Pairwise
        (fun a b => a.2.1 < b.2.1) := by
  induction vals with
  | nil =>
    intro i st hb hp
    exact ⟨by simpa using hb, by simpa [updateBestSeq] using hp⟩
  | cons v rest ih =>
    intro i st hb hp
    cases v with
    | res r =>
      by_cases h : r.ret_code ≠ RetCode.DUPLICATED
      · simp only [updateBestSeq, if_pos h]
        have hb2 : ∀ e ∈ (update_best (clock i) r st).best_cache,
            e.2.1 < clock (i + 1) := by
          intro e he
          simp only [update_best, if_pos h, List.mem_append,
            List.mem_singleton] at he
          rcases he with he | he
          · exact lt_trans (hb e he) (hclock i (i + 1) (by omega))
          · subst he
            exact hclock i (i + 1) (by omega)
        have hp2 : (update_best (clock i) r st).best_cache.Pairwise
            (fun a b => a.2.1 < b.2.1) := by
          simp only [update_best, if_pos h]
          rw [List.pairwise_append]
          refine ⟨hp, ?_, ?_⟩
          · simp
          · intro a ha b hbm
            simp only [List.mem_singleton] at hbm
            subst hbm
            exact hb a ha
        have hres := ih (i + 1) _ hb2 hp2
        refine ⟨?_, hres.2⟩
        intro e he
        have h1 := hres.1 e he
        have heq : i + 1 + rest.length = i + (rest.length + 1) := by omega
        rw [heq] at h1
        simpa using h1
      · simp only [updateBestSeq, if_neg h]
        have hres := ih i st hb hp
        refine ⟨?_, hres.2⟩
        intro e he
        have h1 := hres.1 e he
        have h2 : clock (i + rest.length) < clock (i + (rest.length + 1)) :=
          hclock _ _ (by omega)
        simpa using lt_trans h1 h2
    | boolVal b =>
      have hstep : updateBestSeq clock i (Value.boolVal b :: rest) st =
          updateBestSeq clock i rest st := rfl
      rw [hstep]
      have hres := ih i st hb hp
      refine ⟨?_, hres.2⟩
      intro e he
      have h1 := hres.1 e he
      have h2 : clock (i + rest.length) < clock (i + (rest.length + 1)) :=
        hclock _ _ (by omega)
      simpa using lt_trans h1 h2
    | other s =>
      have hstep : updateBestSeq clock i (Value.other s :: rest) st =
          updateBestSeq clock i rest st := rfl
      rw [hstep]
      have hres := ih i st hb hp
      refine ⟨?_, hres.2⟩
      intro e he
      have h1 := hres.1 e he
      have h2 : clock (i + rest.length) < clock (i + (rest.length + 1)) :=
        hclock _ _ (by omega)
      simpa using lt_trans h1 h2

theorem pickle_query_dictSet (db : PickleDB) (key : String) (v : Value)
    (hv : v.isBool = false) :
    PickleDatabase.query (dictSet db key v) key = some v := by
  unfold PickleDatabase.query pickleGet
  rw [dictGet_dictSet]
  simp [hv]

theorem init_best_cache_mem (clock : Nat → Nat) (stored : List Value)
    (st : DBState) (e : Entry)
    (he : e ∈ (init_best_cache clock stored st).best_cache) :
    e ∈ st.best_cache ∨ e.2.2.ret_code ≠ RetCode.DUPLICATED := by
  unfold init_best_cache at he
  split at he
  · exact Or.inl he
  · rcases initBestAux_mem clock (hlsValid stored) 0 st e he with h1 | ⟨_, h2⟩
    · exact Or.inl h1
    · exact Or.inr h2

theorem init_code_hash_map_mem (stored : List Value) (st st2 : DBState)
    (hsome : init_code_hash_map stored st = some st2)
    (p : String × String) (hp : p ∈ st2.code_hash_map) :
    p ∈ st.code_hash_map ∨
      ∃ r2, r2 ∈ merlins stored ∧ r2.ret_code ≠ RetCode.DUPLICATED ∧
        r2.code_hash = some p.1 := by
  unfold init_code_hash_map at hsome
  split at hsome
  · injection hsome with h
    subst h
    exact Or.inl hp
  · exact initHashAux_mem (merlins stored) st st2 hsome p hp

/-- C4: check-and-set dedup — on a map not containing hash `h`,
`add_code_hash h k1` returns `None` and records `h ↦ k1`; any later
`add_code_hash h k2` (including `k2 = k1`) returns `k1` and leaves the
recorded mapping and the whole state unchanged — first-writer-wins, no
overwrite. -/
theorem C4_check_and_set (st : DBState) (h k1 k2 : String)
    (hnew : dictGet st.code_hash_map h = none) :
    (add_code_hash st h k1).1 = none ∧
    dictGet (add_code_hash st h k1).2.code_hash_map h = some k1 ∧
    (add_code_hash (add_code_hash st h k1).2 h k2).1 = some k1 ∧
    (add_code_hash (add_code_hash st h k1).2 h k2).2 =
      (add_code_hash st h k1).2 := by
  have h1 : add_code_hash st h k1 =
      (none, { st with code_hash_map := dictSet st.code_hash_map h k1 }) := by
    unfold add_code_hash
    rw [hnew]
  have h2 : dictGet (dictSet st.code_hash_map h k1) h = some k1 := by
    rw [dictGet_dictSet]; simp
  refine ⟨by rw [h1], by rw [h1]; exact h2, ?_, ?_⟩
  · rw [h1]
    unfold add_code_hash
    simp only [h2]
  · rw [h1]
    unfold add_code_hash
    simp only [h2]

/-- C4 applied at a concrete fresh hash over a non-empty concrete map. -/
theorem C4_witness :
    dictGet (⟨[], [("h0", "kx")]⟩ : DBState).code_hash_map "h1" = none ∧
    ((add_code_hash ⟨[], [("h0", "kx")]⟩ "h1" "k1").1 = none ∧
     dictGet (add_code_hash ⟨[], [("h0", "kx")]⟩ "h1"
       "k1").2.code_hash_map "h1" = some "k1" ∧
     (add_code_hash (add_code_hash ⟨[], [("h0", "kx")]⟩ "h1" "k1").2 "h1"
       "k2").1 = some "k1" ∧
     (add_code_hash (add_code_hash ⟨[], [("h0", "kx")]⟩ "h1" "k1").2 "h1"
       "k2").2 = (add_code_hash ⟨[], [("h0", "kx")]⟩ "h1" "k1").2) :=
  ⟨by decide, C4_check_and_set ⟨[], [("h0", "kx")]⟩ "h1" "k1" "k2" (by decide)⟩

/-- C6: write visibility — after `commit(k, r)` succeeds on the pickle
backend, `query(k)` returns exactly `r` (the embedding's values round-trip
by construction, matching the claim's serialization assumption). -/
theorem C6_write_visibility (now : Nat) (key : String) (r : Result)
    (s : PickleStore) :
    ∃ s2, PickleDatabase.commit now key (.res r) s = .ok s2 ∧
      s2.db = dictSet s.db key (.res r) ∧
      PickleDatabase.query s2.db key = some (.res r) := by
  refine ⟨_, rfl, rfl, ?_⟩
  exact pickle_query_dictSet s.db key (.res r) rfl

/-- C7: fatal write failure — when `commit_impl` returns `False`,
`Database.commit` exits with status 1 leaving the in-memory state (best
cache included) untouched; when the backend reports fewer successful writes
than requested pairs, `Database.batch_commit` likewise exits with status 1
without performing any best-cache update. -/
theorem C7_fatal_write_failure (now : Nat) (v : Value) (st : DBState)
    (implCount : Nat) (clock : Nat → Nat) (pairs : List (String × Value))
    (hfewer : implCount < pairs.length) :
    Database.commit false now v st = .exited 1 st ∧
    Database.batch_commit implCount clock pairs st = .exited 1 st := by
  constructor
  · rfl
  · unfold Database.batch_commit
    rw [if_pos (Nat.ne_of_lt hfewer)]

/-- C7 applied to a concrete failing write and a concrete short batch
count. -/
theorem C7_witness :
    0 < ([("k", Value.other "z")] : List (String × Value)).length ∧
    (Database.commit false 0 (Value.other "z") emptyState =
        .exited 1 emptyState ∧
     Database.batch_commit 0 (fun _ => 0) [("k", Value.other "z")]
        emptyState = .exited 1 emptyState) :=
  ⟨by decide, C7_fatal_write_failure 0 (Value.other "z") emptyState 0
    (fun _ => 0) [("k", Value.other "z")] (by decide)⟩

/-- C8: the `except ValueError` arms at database.py lines 291 and 307 do
not catch `pickle.loads`' actual failure modes (`UnpicklingError` and
`EOFError` are not `ValueError`s), so at a store holding such a blob under
"a" the exception escapes: `query "a"` raises instead of returning null,
and `batch_query ["b", "a"]` aborts, returning nothing even for the healthy
key "b" — against the claim's never-fails / null-per-key / per-key
isolation.  The `ValueError` kind the code does catch, a falsy blob and a
missing key are surfaced as null with per-key isolation, as the claim
describes. -/
theorem C8_uncaught_escape :
    RedisDatabase.query exdb "a" = .exn ∧
    RedisDatabase.batch_query exdb ["b", "a"] = .exn ∧
    RedisDatabase.query exdb "c" = .ret none ∧
    RedisDatabase.batch_query exdb ["b", "c", "d", "zz"] =
      .ret [some (.res rv1), none, none, none] := by
  decide

/-- C9: implicit type gate — committing a non-`Result` value stores it in
the backend while the best cache is left exactly as it was, and every entry
the batch-commit update loop adds to the best cache originates from a
`Result` instance among the committed values. -/
theorem C9_type_gate (now : Nat) (key : String) (v : Value)
    (s : PickleStore) (clock : Nat → Nat) (pairs : List (String × Value))
    (st : DBState) (hv : v.isResult = false) :
    PickleDatabase.commit now key v s =
      .ok { db := dictSet s.db key v, st := s.st } ∧
    dictGet (dictSet s.db key v) key = some v ∧
    ∀ e ∈ (updateBestSeq clock 0 (pairs.map Prod.snd) st).best_cache,
      e ∈ st.best_cache ∨ Value.res e.2.2 ∈ pairs.map Prod.snd := by
  refine ⟨?_, ?_, ?_⟩
  · cases v with
    | res r => simp [Value.isResult] at hv
    | boolVal b => rfl
    | other s2 => rfl
  · rw [dictGet_dictSet]; simp
  · intro e he
    rcases updateBestSeq_mem clock (pairs.map Prod.snd) 0 st e he with
      h1 | ⟨h1, _⟩
    · exact Or.inl h1
    · exact Or.inr h1

/-- C9 applied to a concrete non-`Result` committed value. -/
theorem C9_witness :
    (Value.other "w").isResult = false ∧
    (PickleDatabase.commit 0 "k" (Value.other "w") ⟨[], emptyState⟩ =
        .ok { db := dictSet [] "k" (Value.other "w"), st := emptyState } ∧
     dictGet (dictSet [] "k" (Value.other "w")) "k" =
        some (Value.other "w") ∧
     ∀ e ∈ (updateBestSeq (fun _ => 0) 0
         ([("k", Value.other "w")].map Prod.snd) emptyState).best_cache,
       e ∈ emptyState.best_cache ∨
         Value.res e.2.2 ∈ [("k", Value.other "w")].map Prod.snd) :=
  ⟨rfl, C9_type_gate 0 "k" (Value.other "w") ⟨[], emptyState⟩ (fun _ => 0)
    [("k", Value.other "w")] emptyState rfl⟩

/-- C5: duplicated exclusion — a `DUPLICATED` result committed through the
pickle backend is stored and discoverable via `query`, yet `update_best`
leaves the best cache unchanged, a `DUPLICATED` entry can never be pushed by
`init_best_cache`, and every binding `init_code_hash_map` adds traces back
to a non-`DUPLICATED` Merlin result, so a `DUPLICATED` result never enters
the code-hash index either. -/
theorem C5_duplicated_exclusion (now : Nat) (key : String) (r : Result)
    (s : PickleStore) (clock : Nat → Nat) (stored : List Value)
    (st st2 : DBState) (hdup : r.ret_code = RetCode.DUPLICATED) :
    PickleDatabase.commit now key (.res r) s =
      .ok { db := dictSet s.db key (.res r), st := s.st } ∧
    PickleDatabase.query (dictSet s.db key (.res r)) key = some (.res r) ∧
    update_best now r st = st ∧
    (∀ q t, (q, t, r) ∈ (init_best_cache clock stored st).best_cache →
      (q, t, r) ∈ st.best_cache) ∧
    (init_code_hash_map stored st = some st2 →
      ∀ p : String × String, p ∈ st2.code_hash_map →
        p ∈ st.code_hash_map ∨
          ∃ r2, r2 ∈ merlins stored ∧ r2.ret_code ≠ RetCode.DUPLICATED ∧
            r2.code_hash = some p.1) := by
  have hu : ∀ st0 : DBState, update_best now r st0 = st0 := by
    intro st0
    simp [update_best, hdup]
  refine ⟨?_, ?_, hu st, ?_, ?_⟩
  · have hcommit : PickleDatabase.commit now key (Value.res r) s =
        .ok { db := dictSet s.db key (Value.res r),
              st := update_best now r s.st } := rfl
    rw [hcommit, hu]
  · exact pickle_query_dictSet s.db key (.res r) rfl
  · intro q t hq
    rcases init_best_cache_mem clock stored st (q, t, r) hq with h1 | h2
    · exact h1
    · exact absurd hdup h2
  · intro hsome p hp
    exact init_code_hash_map_mem stored st st2 hsome p hp

/-- C5 applied to the concrete duplicated result `rDup`: the `update_best`
no-op conjunct at a concrete state. -/
theorem C5_witness :
    rDup.ret_code = RetCode.DUPLICATED ∧
    update_best 3 rDup ⟨[(0, 0, rv1)], []⟩ = ⟨[(0, 0, rv1)], []⟩ :=
  ⟨rfl, (C5_duplicated_exclusion 3 "k" rDup ⟨[], emptyState⟩ (fun _ => 0)
    exStored ⟨[(0, 0, rv1)], []⟩ emptyState rfl).2.2.1⟩

/-- C1, as stated, fails: with one non-`DUPLICATED`, hash-carrying Merlin
result in the backend, `load()` leaves the best cache empty (the stored
result is not a valid HLS result, which `init_best_cache` requires) but
fills the code-hash index, while incrementally committing the same result
does the opposite (the best cache gets it, the code-hash index — which
`commit` never touches — stays empty): both components differ. -/
theorem C1_counterexample :
    (load (fun _ => 0) [.res rMerl] emptyState).map bestPairs ≠
      some (bestPairs (commitSeq (fun _ => 0) 0 [.res rMerl] emptyState)) ∧
    (load (fun _ => 0) [.res rMerl] emptyState).map
        (fun st => st.code_hash_map) ≠
      some (commitSeq (fun _ => 0) 0 [.res rMerl] emptyState).code_hash_map := by
  decide

/-- C1 amended: `load()` populates the best cache with exactly the valid
HLS results among the stored values — the same `(quality, result)` entries,
in order, as incrementally committing just that subset to an empty store —
and populates the code-hash index with the last-writer-wins reading of the
eligible Merlin results' `(hash, key)` assignments in persisted order,
whereas incremental commits of the stored results leave the code-hash index
empty. -/
theorem C1_rebuild (clock clock2 : Nat → Nat) (stored : List Value)
    (hpts : pointsOk (merlins stored)) :
    ∃ st2, load clock stored emptyState = some st2 ∧
      bestPairs st2 =
        bestPairs (commitSeq clock2 0 ((hlsValid stored).map Value.res)
          emptyState) ∧
      (commitSeq clock2 0 stored emptyState).code_hash_map = [] ∧
      ∀ q, dictGet st2.code_hash_map q =
        lastVal (hashAssignments (merlins stored)) q := by
  have hload : load clock stored emptyState =
      some { init_best_cache clock stored emptyState with
        code_hash_map := applyAssignments
          (init_best_cache clock stored emptyState).code_hash_map
          (hashAssignments (merlins stored)) } := by
    unfold load
    exact init_code_hash_map_eq stored _ hpts
  refine ⟨_, hload, ?_, ?_, ?_⟩
  · have h1 : bestPairs (init_best_cache clock stored emptyState) =
        bestPairs (commitSeq clock2 0 ((hlsValid stored).map Value.res)
          emptyState) := by
      rw [bestPairs_init_best_cache, bestPairs_commitSeq, resultsOf_map_res]
    exact h1
  · exact code_hash_map_commitSeq clock2 stored 0 emptyState
  · intro q
    show dictGet (applyAssignments
      (init_best_cache clock stored emptyState).code_hash_map
      (hashAssignments (merlins stored))) q = _
    rw [code_hash_map_init_best_cache, dictGet_applyAssignments]
    cases hlv : lastVal (hashAssignments (merlins stored)) q with
    | none => simp [emptyState, dictGet]
    | some v => simp

/-- C1 amended, applied to the concrete mixed store `exStored`. -/
theorem C1_witness :
    pointsOk (merlins exStored) ∧
    (∃ st2, load (fun n => n) exStored emptyState = some st2 ∧
      bestPairs st2 = bestPairs (commitSeq (fun n => n) 0
        ((hlsValid exStored).map Value.res) emptyState) ∧
      (commitSeq (fun n => n) 0 exStored emptyState).code_hash_map = [] ∧
      ∀ q, dictGet st2.code_hash_map q =
        lastVal (hashAssignments (merlins exStored)) q) :=
  ⟨by decide, C1_rebuild (fun n => n) (fun n => n) exStored (by decide)⟩

/-- C2, as stated, fails: two Merlin results sharing hash "hh" are stored
in the order `rMerl` (point "pb") then `rMerl2` (point "pc"); after the
rebuild the index maps "hh" to the key derived from the LAST occurrence
("pc"), not the first ("pb") — the later occurrence overwrote the earlier
one. -/
theorem C2_counterexample :
    (init_code_hash_map [.res rMerl, .res rMerl2] emptyState).map
        (fun st => dictGet st.code_hash_map "hh") = some (some "pc") ∧
    gen_key_from_design_point "pc" ≠ gen_key_from_design_point "pb" := by
  decide

/-- C2 amended: `init_code_hash_map` performs one plain dict assignment per
eligible stored result in backend order, so for every hash the recorded key
is the one derived from the LAST eligible occurrence — later occurrences
overwrite earlier ones; the best cache is untouched. -/
theorem C2_last_writer_wins (stored : List Value) (st : DBState)
    (hpts : pointsOk (merlins stored)) :
    ∃ st2, init_code_hash_map stored st = some st2 ∧
      st2.best_cache = st.best_cache ∧
      ∀ q, dictGet st2.code_hash_map q =
        match lastVal (hashAssignments (merlins stored)) q with
        | some v => some v
        | none => dictGet st.code_hash_map q := by
  refine ⟨_, init_code_hash_map_eq stored st hpts, rfl, ?_⟩
  intro q
  exact dictGet_applyAssignments (hashAssignments (merlins stored))
    st.code_hash_map q

/-- C2 amended, applied to the two same-hash Merlin results. -/
theorem C2_witness :
    pointsOk (merlins [Value.res rMerl, Value.res rMerl2]) ∧
    (∃ st2, init_code_hash_map [Value.res rMerl, Value.res rMerl2]
        emptyState = some st2 ∧
      st2.best_cache = emptyState.best_cache ∧
      ∀ q, dictGet st2.code_hash_map q =
        match lastVal (hashAssignments
            (merlins [Value.res rMerl, Value.res rMerl2])) q with
        | some v => some v
        | none => dictGet emptyState.code_hash_map q) :=
  ⟨by decide, C2_last_writer_wins [Value.res rMerl, Value.res rMerl2]
    emptyState (by decide)⟩

/-- C3, as stated, fails: `update_best` stamps each entry with the wall
clock, which the code never forces to advance; with a stalled clock two
successive insertions receive equal timestamps, so timestamps are not
strictly greater than all previously assigned ones. -/
theorem C3_counterexample :
    ¬ ((updateBestSeq (fun _ => 5) 0 [.res rv1, .res rv1]
        emptyState).best_cache.Pairwise (fun a b => a.2.1 < b.2.1)) := by
  decide

/-- C3 amended: each insertion is stamped with the wall-clock reading at
insertion time, which the code does not force to increase; provided the
readings observed by successive insertions strictly increase, the cache
carries strictly increasing timestamps in insertion order, and draining
yields a permutation of the entries that is non-decreasing in quality, with
the earlier-inserted (smaller-timestamp) entry drained first among entries
of equal quality. -/
theorem C3_ordering (clock : Nat → Nat)
    (hclock : ∀ i j, i < j → clock i < clock j) (vals : List Value) :
    ((updateBestSeq clock 0 vals emptyState).best_cache.Pairwise
        (fun a b => a.2.1 < b.2.1)) ∧
    List.Perm (drain (updateBestSeq clock 0 vals emptyState).best_cache)
      (updateBestSeq clock 0 vals emptyState).best_cache ∧
    ((drain (updateBestSeq clock 0 vals emptyState).best_cache).Pairwise
        (fun a b => a.1 ≤ b.1)) ∧
    ((drain (updateBestSeq clock 0 vals emptyState).best_cache).Pairwise
        (fun a b => a.1 = b.1 → a.2.1 < b.2.1)) := by
  have hempty1 : ∀ e ∈ emptyState.best_cache, e.2.1 < clock 0 := by
    intro e he
    simp [emptyState] at he
  have hempty2 : emptyState.best_cache.Pairwise
      (fun a b => a.2.1 < b.2.1) := by
    simp [emptyState]
  have hts : (updateBestSeq clock 0 vals emptyState).best_cache.Pairwise
      (fun a b => a.2.1 < b.2.1) :=
    (updateBestSeq_ts clock hclock vals 0 emptyState hempty1 hempty2).2
  have hperm : List.Perm
      (drain (updateBestSeq clock 0 vals emptyState).best_cache)
      (updateBestSeq clock 0 vals emptyState).best_cache :=
    List.perm_insertionSort entryLE _
  have hsorted : (drain (updateBestSeq clock 0 vals
      emptyState).best_cache).Pairwise entryLE :=
    List.sorted_insertionSort entryLE _
  have hne : (updateBestSeq clock 0 vals emptyState).best_cache.Pairwise
      (fun a b : Entry => a.2.1 ≠ b.2.1) :=
    hts.imp fun hab => Nat.ne_of_lt hab
  have hne2 : (drain (updateBestSeq clock 0 vals
      emptyState).best_cache).Pairwise (fun a b : Entry => a.2.1 ≠ b.2.1) :=
    (hperm.pairwise_iff fun hxy => hxy.symm).mpr hne
  refine ⟨hts, hperm, ?_, ?_⟩
  · refine hsorted.imp fun hab => ?_
    rcases hab with h1 | ⟨h1, _⟩
    · exact le_of_lt h1
    · exact le_of_eq h1
  · refine (hsorted.and hne2).imp fun hab => ?_
    rcases hab with ⟨h1 | ⟨_, h2⟩, hne3⟩
    · intro heq
      exact absurd heq (ne_of_lt h1)
    · intro _
      exact lt_of_le_of_ne h2 hne3

/-- C3 amended, applied to the identity clock and a concrete run containing
two equal-quality insertions. -/
theorem C3_witness :
    (∀ i j : Nat, i < j → (fun n => n) i < (fun n => n) j) ∧
    (((updateBestSeq (fun n => n) 0 [Value.res rv1, Value.res rHLSv,
        Value.res rv1] emptyState).best_cache.Pairwise
        (fun a b => a.2.1 < b.2.1)) ∧
     List.Perm (drain (updateBestSeq (fun n => n) 0 [Value.res rv1,
        Value.res rHLSv, Value.res rv1] emptyState).best_cache)
      (updateBestSeq (fun n => n) 0 [Value.res rv1, Value.res rHLSv,
        Value.res rv1] emptyState).best_cache ∧
     ((drain (updateBestSeq (fun n => n) 0 [Value.res rv1, Value.res rHLSv,
        Value.res rv1] emptyState).best_cache).Pairwise
        (fun a b => a.1 ≤ b.1)) ∧
     ((drain (updateBestSeq (fun n => n) 0 [Value.res rv1, Value.res rHLSv,
        Value.res rv1] emptyState).best_cache).Pairwise
        (fun a b => a.1 = b.1 → a.2.1 < b.2.1))) :=
  ⟨fun _ _ h => h, C3_ordering (fun n => n) (fun _ _ h => h)
    [Value.res rv1, Value.res rHLSv, Value.res rv1]⟩

/-- C10, as stated, fails: `RedisDatabase.batch_commit_impl` returns the
size of the dict comprehension built from the pairs — the number of
DISTINCT keys — so a batch repeating a key makes it report fewer writes
than requested and `Database.batch_commit` reaches the process-exit branch
with this shipped adapter. -/
theorem C10_counterexample :
    (RedisDatabase.batch_commit_impl []
        [("k", Value.other "a"), ("k", Value.other "b")]).2 ≠ 2 ∧
    RedisDatabase.batch_commit (fun _ => 0)
        [("k", Value.other "a"), ("k", Value.other "b")] ⟨[], emptyState⟩ =
      .exited 1 ⟨[("k", .good (Value.other "b"))], emptyState⟩ := by
  decide

/-- C10 amended: both backends' `commit_impl` always return `True` and
`PickleDatabase.batch_commit_impl` always returns `len(pairs)` — for every
batch, duplicate keys included — so the exit branch of `Database.commit` is
unreachable on both backends and the exit branch of `Database.batch_commit`
is unreachable on the pickle backend; `RedisDatabase.batch_commit_impl`
returns the number of distinct keys, so the Redis batch-commit exit branch
is avoided exactly when the batch's keys are pairwise distinct (and reached
otherwise, as the counterexample shows). -/
theorem C10_unreachable_exit (db : RedisDB) (pdb : PickleDB) (k : String)
    (v : Value) (now : Nat) (clock : Nat → Nat)
    (pairs : List (String × Value)) (s : RedisStore) (ps : PickleStore) :
    (RedisDatabase.commit_impl db k v).2 = true ∧
    (PickleDatabase.commit_impl pdb k v).2 = true ∧
    (PickleDatabase.batch_commit_impl pdb pairs).2 = pairs.length ∧
    (∃ s1, RedisDatabase.commit now k v s = .ok s1) ∧
    (∃ p1, PickleDatabase.commit now k v ps = .ok p1) ∧
    (∃ p2, PickleDatabase.batch_commit clock pairs ps = .ok p2) ∧
    ((pairs.map Prod.fst).Nodup →
      ∃ s2, RedisDatabase.batch_commit clock pairs s = .ok s2) := by
  refine ⟨rfl, rfl, rfl, ⟨_, rfl⟩, ⟨_, rfl⟩, ?_, ?_⟩
  · refine ⟨{ db := (PickleDatabase.batch_commit_impl ps.db pairs).1,
              st := updateBestSeq clock 0 (pairs.map Prod.snd) ps.st }, ?_⟩
    simp [PickleDatabase.batch_commit, PickleDatabase.batch_commit_impl]
  · intro hnd
    refine ⟨{ db := (RedisDatabase.batch_commit_impl s.db pairs).1,
              st := updateBestSeq clock 0 (pairs.map Prod.snd) s.st }, ?_⟩
    have hlen := pairsDict_length pairs hnd
    simp [RedisDatabase.batch_commit, RedisDatabase.batch_commit_impl, hlen]

/-- C10 amended, applied to a concrete duplicate-key batch on the pickle
side (the backend still reports the full length and the exit branch is not
taken) and to a concrete distinct-key batch on the Redis side (discharging
the Nodup hypothesis of the last conjunct). -/
theorem C10_witness :
    (PickleDatabase.batch_commit_impl []
        [("k", Value.other "a"), ("k", Value.other "b")]).2 =
      ([("k", Value.other "a"), ("k", Value.other "b")] :
        List (String × Value)).length ∧
    (∃ p2, PickleDatabase.batch_commit (fun _ => 0)
        [("k", Value.other "a"), ("k", Value.other "b")]
        ⟨[], emptyState⟩ = .ok p2) ∧
    (([("k1", Value.other "a"), ("k2", Value.other "b")] :
        List (String × Value)).map Prod.fst).Nodup ∧
    (∃ s2, RedisDatabase.batch_commit (fun _ => 0)
        [("k1", Value.other "a"), ("k2", Value.other "b")]
        ⟨[], emptyState⟩ = .ok s2) :=
  ⟨(C10_unreachable_exit [] [] "k" (Value.other "z") 0 (fun _ => 0)
      [("k", Value.other "a"), ("k", Value.other "b")]
      ⟨[], emptyState⟩ ⟨[], emptyState⟩).2.2.1,
   (C10_unreachable_exit [] [] "k" (Value.other "z") 0 (fun _ => 0)
      [("k", Value.other "a"), ("k", Value.other "b")]
      ⟨[], emptyState⟩ ⟨[], emptyState⟩).2.2.2.2.2.1,
   by decide,
   (C10_unreachable_exit [] [] "k" (Value.other "z") 0 (fun _ => 0)
      [("k1", Value.other "a"), ("k2", Value.other "b")]
      ⟨[], emptyState⟩ ⟨[], emptyState⟩).2.2.2.2.2.2 (by decide)⟩

end AutoDSE
